import Mathlib

/-!
# Verification of the `impossibly` agent-graph engine

Shallow embedding of the graph execution engine found in
`src/imengine/graph.py`, `src/imengine/agent.py` and
`src/imengine/utils/memory.py`, together with theorems settling the
frozen specification claims.

Conventions of the embedding:
* Python `Agent` objects are represented by `AgentData`; the field `aid`
  models Python object identity, so two distinct Agent instances are
  represented with distinct `aid`s and equality of `AgentData` values
  corresponds to Python `is` (and to default `==`, since `Agent` defines
  no `__eq__`).
* Raw text scanned by the routing extractor is represented as `List Char`;
  other text (names, memory contents, assembled prompts) as `String`.
* Fallible Python code (raising `ValueError`, `TypeError`, `NameError`,
  `IndexError`, ...) is modelled with explicit error results.
* The remote model call (`OpenAI` chat completion) is an opaque oracle
  function, following the spec's treatment of it as a black box.
-/

set_option maxHeartbeats 1000000

/-- Data carried by a Python `Agent` instance (agent.py): its display name and
the description used when it is offered as a routing option.  `aid` models
object identity (see module docstring). -/
structure AgentData where
  aid : Nat
  name : String
  description : String
deriving DecidableEq

/-- Modelled from the spec: the source imports `START` and `END` from
`utils/start_end.py`, a file that is not under `src/`; the spec (§3, glossary)
describes them as two distinguished singleton sentinel values that are not
full agent nodes.  A graph node is an agent or one of the two sentinels.
Equality on `GNode` models Python object identity (sentinels are singletons,
agents are identified by `aid`). -/
inductive GNode where
  | START : GNode
  | END : GNode
  | agent : AgentData → GNode
deriving DecidableEq

/-- Display name of a node.  Agents carry their own name.  The END sentinel's
name attribute is mutable in the source (`Memory.add` assigns to it), so it is
passed in as the current value `endName`.  Modelled from the spec for the
sentinels themselves (`utils/start_end.py` absent from src): START renders by
its own token name. -/
def nmOf (endName : String) : GNode → String
  | GNode.START => "START"
  | GNode.END => endName
  | GNode.agent a => a.name

/-- Raw text as scanned by the routing extractor. -/
abbrev Chars := List Char

/-- The two-character delimiter `\\` of a routing command. -/
def bs2 : Chars := ['\\', '\\']

/-- The lazy capture group of the routing regex
`(?<=\\\\)(.*?)(?=\\\\)` (graph.py line 153), started at a fixed position:
the shortest (possibly empty) prefix of `s` that is followed by two
consecutive literal backslashes.  `re.DOTALL` lets the capture span
newlines, which holds of `List Char` with no special handling. -/
def lazyCapture : Chars → Option Chars
  | [] => none
  | [_] => none
  | c :: d :: rest =>
      if c = '\\' ∧ d = '\\' then some []
      else (lazyCapture (d :: rest)).map (c :: ·)

/-- First-match semantics of `re.search` for the routing pattern
(graph.py line 153).  `re.search` tries candidate start positions left to
right; a candidate position must be preceded by two literal backslashes
(the lookbehind), so the first candidate sits right after the leftmost
occurrence of two consecutive backslashes, where the lazy capture is taken.
If the lazy capture fails there, no closing backslash pair exists to its
right, so every later candidate fails as well and the search returns no
match — hence no further scanning is needed. -/
def findCommand : Chars → Option Chars
  | [] => none
  | [_] => none
  | c :: d :: rest =>
      if c = '\\' ∧ d = '\\' then lazyCapture rest
      else findCommand (d :: rest)

/-- Boolean test that `p` occurs at the front of `s`. -/
def leadsWith : Chars → Chars → Bool
  | [], _ => true
  | _ :: _, [] => false
  | c :: p, d :: s => c = d && leadsWith p s

/-- Removal of the first occurrence of the literal pattern `pat`, mirroring
`re.sub(r'\\\\' + re.escape(name) + r'\\\\', '', output, count=1)`
(graph.py line 156): `re.escape` makes the pattern literal and `count=1`
removes only the leftmost occurrence; absent any occurrence the text is
returned unchanged. -/
def removeFirst (pat : Chars) : Chars → Chars
  | [] => []
  | c :: rest =>
      if leadsWith pat (c :: rest) then (c :: rest).drop pat.length
      else c :: removeFirst pat rest

/-- The Python loop `for i, option in enumerate(options): if p(option): return i`
(graph.py lines 163-165): index of the first element satisfying `p`. -/
def scanIdx (p : GNode → Bool) : List GNode → Option Nat
  | [] => none
  | o :: rest => if p o then some 0 else (scanIdx p rest).map (· + 1)

/-- Result of `Graph._get_route`: either a selected edge index together with
the (possibly stripped) output, or an uncaught `ValueError` from
`options.index(END)` when the captured command is `END` but the END sentinel
is not among the options. -/
inductive RouteOut where
  | route : Nat → Chars → RouteOut
  | fail : RouteOut
deriving DecidableEq

/-- `Graph._get_route` (graph.py lines 141-167).  Scans the output for the
first delimited routing command; if found, strips its first literal
occurrence from the output, then resolves `END` by sentinel identity
(`options.index(END)`, which raises `ValueError` when absent) and any other
captured name by the first option whose `name` attribute equals it; when the
name matches nothing the code falls through to the default
`return 0, output` — with `output` still holding the stripped text, since
the local variable was reassigned before the fall-through.  With no match at
all the untouched output is returned with index 0. -/
def getRoute (endName : String) (options : List GNode) (output : Chars) : RouteOut :=
  match findCommand output with
  | some m =>
      let output' := removeFirst (bs2 ++ m ++ bs2) output
      if m = "END".toList then
        match scanIdx (fun o => o == GNode.END) options with
        | some i => RouteOut.route i output'
        | none => RouteOut.fail
      else
        match scanIdx (fun o => (nmOf endName o).toList == m) options with
        | some i => RouteOut.route i output'
        | none => RouteOut.route 0 output'
  | none => RouteOut.route 0 output

/-! ## Conversation memory (utils/memory.py) -/

/-- One record of the global conversation memory (memory.py `Memory.add`):
a JSON object with the author's name, the recipient's name and the content. -/
structure MemRecord where
  author : String
  recipient : String
  content : String
deriving DecidableEq

/-- `Memory.add` (memory.py lines 12-20).  When the recipient is the END
sentinel the source first executes `recipient.name = 'END'`, mutating the
singleton's name attribute; the mutable attribute is threaded here as the
`endName` component of the result, and the stored record reads names after
the mutation. -/
def memAdd (endName : String) (mem : List MemRecord) (author recipient : GNode)
    (content : String) : String × List MemRecord :=
  let e := if recipient = GNode.END then "END" else endName
  (e, mem ++ [⟨nmOf e author, nmOf e recipient, content⟩])

/-- A Python value passed to `Memory.get`, whose annotations say
`list['Agent']` but whose body tests raw membership of name strings. -/
inductive PyArg where
  | astr : String → PyArg
  | anode : GNode → PyArg
deriving DecidableEq

/-- Python `==` between the values `Memory.get` compares: two strings compare
by content, two Agent/sentinel objects by identity, and a string compared
with an Agent object is `False` (no `__eq__` crossing the types). -/
def pyArgEq : PyArg → PyArg → Bool
  | PyArg.astr a, PyArg.astr b => a == b
  | PyArg.anode a, PyArg.anode b => a == b
  | _, _ => false

/-- `Memory.get` (memory.py lines 22-23):
`[m for m in self.memory if m['author'] in author and m['recipient'] in recipient]`,
where `in` tests membership with Python `==`. -/
def memGet (mem : List MemRecord) (authors recipients : List PyArg) : List MemRecord :=
  mem.filter (fun r =>
    authors.any (fun v => pyArgEq (PyArg.astr r.author) v) &&
    recipients.any (fun v => pyArgEq (PyArg.astr r.recipient) v))

/-- The line rendered for one record by `Memory.get_formatted`:
`f"{m['author']} -> {m['recipient']}: {m['content']}"`. -/
def fmtLine (r : MemRecord) : String :=
  r.author ++ " -> " ++ r.recipient ++ ": " ++ r.content

/-- `Memory.get_formatted` (memory.py lines 25-29): keeps the records whose
author name is among `[a.name for a in author]` and whose recipient name is
among `[a.name for a in recipient]`, renders each and joins with newlines.
Name attributes are read through `nmOf` with the current END display name. -/
def getFormatted (endName : String) (mem : List MemRecord)
    (authors recipients : List GNode) : String :=
  String.intercalate "\n"
    ((mem.filter (fun r =>
        (authors.map (nmOf endName)).contains r.author &&
        (recipients.map (nmOf endName)).contains r.recipient)).map fmtLine)

/-- Written from the spec's words (§4.2), for comparison with the source's
`getFormatted`: walk the records in insertion order, keep one line per record
whose author is among the given author names AND whose recipient is among the
given recipient names. -/
def formattedLinesSpec (authorNames recipNames : List String) :
    List MemRecord → List String
  | [] => []
  | r :: rest =>
      if r.author ∈ authorNames ∧ r.recipient ∈ recipNames then
        fmtLine r :: formattedLinesSpec authorNames recipNames rest
      else formattedLinesSpec authorNames recipNames rest

/-! ## Graph bookkeeping (graph.py lines 46-101) -/

/-- The `edges` attribute: a Python dict from nodes to adjacency lists,
modelled as an insertion-ordered association list (Python dicts preserve
insertion order; assignment to an existing key keeps its position). -/
abbrev Adj := List (GNode × List GNode)

/-- The keys of the edges dict (`self.nodes = self.edges.keys()`). -/
def keysOf (g : Adj) : List GNode := g.map Prod.fst

/-- Dict lookup `self.edges[n]`: value at the first entry with key `n`. -/
def lookupAdj (g : Adj) (n : GNode) : Option (List GNode) :=
  match g with
  | [] => none
  | (k, v) :: rest => if k = n then some v else lookupAdj rest n

/-- Dict assignment `self.edges[n] = l`: replace the value at an existing key
in place, otherwise append the new key. -/
def setAdj (g : Adj) (n : GNode) (l : List GNode) : Adj :=
  match g with
  | [] => [(n, l)]
  | (k, v) :: rest => if k = n then (n, l) :: rest else (k, v) :: setAdj rest n l

/-- `self.edges[n1].append(n2)` for a key known to be present: append to the
first entry with key `n1`. -/
def appendAdj (g : Adj) (n1 n2 : GNode) : Adj :=
  match g with
  | [] => []
  | (k, v) :: rest =>
      if k = n1 then (k, v ++ [n2]) :: rest else (k, v) :: appendAdj rest n1 n2

/-- `Graph.__init__` (graph.py lines 46-52): the dict starts with the two
sentinels mapped to empty lists. -/
def initGraph : Adj := [(GNode.START, []), (GNode.END, [])]

/-- `Graph.add_node` for a single Agent (graph.py line 71): register (or
reset) the node with an empty adjacency list.  The list overload iterates
this same assignment. -/
def addNode (g : Adj) (a : AgentData) : Adj := setAdj g (GNode.agent a) []

/-- The error raised by `Graph.add_edge` when a referenced node was never
added: `ValueError(f"{n} is not a valid node in the graph...")`. -/
inductive EdgeErr where
  | invalidNode : GNode → EdgeErr
deriving DecidableEq

/-- Inner loop of `Graph.add_edge` (graph.py lines 97-101) for a fixed source
`n1`: for each destination in order, skip it if it is the identical instance
(`n1 is not n2`), otherwise check registration and append; a failed check
raises immediately, leaving all earlier appends in place. -/
def addEdgeInner (g : Adj) (n1 : GNode) : List GNode → Adj × Option EdgeErr
  | [] => (g, none)
  | n2 :: rest =>
      if n1 = n2 then addEdgeInner g n1 rest
      else if (keysOf g).contains n2 then addEdgeInner (appendAdj g n1 n2) n1 rest
      else (g, some (EdgeErr.invalidNode n2))

/-- `Graph.add_edge` (graph.py lines 76-101) after normalizing both arguments
to lists: iterate sources in order, validating each before its inner loop;
an unregistered source raises immediately with the state reached so far. -/
def addEdge (g : Adj) : List GNode → List GNode → Adj × Option EdgeErr
  | [], _ => (g, none)
  | n1 :: rest, n2s =>
      if (keysOf g).contains n1 then
        match addEdgeInner g n1 n2s with
        | (g', none) => addEdge g' rest n2s
        | (g', some e) => (g', some e)
      else (g, some (EdgeErr.invalidNode n1))

/-- Graph states built by a sequence of constructor, `add_node` and
successful `add_edge` calls (the list overloads of both methods iterate the
single-node operations, so sequences of the single forms cover them). -/
inductive Built : Adj → Prop
  | init : Built initGraph
  | node {g : Adj} (a : AgentData) : Built g → Built (addNode g a)
  | edge {g g' : Adj} {n1s n2s : List GNode} :
      Built g → addEdge g n1s n2s = (g', none) → Built g'

/-! ## The execution driver `Graph.invoke` (graph.py lines 104-138) -/

/-- Uncaught Python exceptions that the driver loop can raise. -/
inductive RunErr where
  | nameError : RunErr   -- `return prompt` with `prompt` unbound (line 107)
  | keyError : RunErr    -- dict subscript on a missing node
  | indexError : RunErr  -- list subscript past the end
  | valueError : RunErr  -- `options.index(END)` with END absent
  | attrError : RunErr   -- attribute access on a sentinel used as current node
  | fuelEmpty : RunErr   -- artificial bound: the unbounded while-loop ran on
deriving DecidableEq

/-- Mutable state of the while-loop in `Graph.invoke`: the current node, the
prompt to feed it, the END sentinel's current display name and the global
memory of this run. -/
structure LoopState where
  curr : GNode
  prompt : String
  endName : String
  mem : List MemRecord
deriving DecidableEq

/-- Outcome of one iteration of the while-loop body (graph.py lines 117-138):
the function returns (END look-ahead hit, carrying the memory as it stands,
untouched by this hop), continues with a new state, or raises. -/
inductive StepOut where
  | finish : String → List MemRecord → StepOut
  | cont : LoopState → StepOut
  | fail : RunErr → StepOut
deriving DecidableEq

/-- Prompt augmentation at the top of the while-loop body (graph.py lines
117-119): when the current node's `shared_memory` attribute (read by
`sharedOf`, a list of peer agents, empty standing for the default `None`) is
truthy, the shared-memory transcript is appended to the outgoing prompt. -/
def stepPrompt (sharedOf : AgentData → List GNode) (st : LoopState)
    (a : AgentData) : String :=
  if sharedOf a ≠ [] then
    st.prompt ++ "\n\nPrevious messages: \n" ++
      getFormatted st.endName st.mem (sharedOf a) (sharedOf a)
  else st.prompt

/-- One iteration of the while-loop body of `Graph.invoke` (graph.py lines
117-138).  `oracle` is the opaque remote model call performed by
`curr_node.invoke(...)` — prompt in, raw text out (spec §6).  The body:
augment the prompt via `stepPrompt`, invoke the node, route among multiple
outgoing edges via `_get_route`, return the output as soon as the resolved
next node is END (before the memory update), and otherwise record the hop in
the global memory and advance to the resolved node. -/
def invokeStep (g : Adj) (sharedOf : AgentData → List GNode)
    (oracle : GNode → String → String) (st : LoopState) : StepOut :=
  match st.curr with
  | GNode.agent a =>
      let output := oracle st.curr (stepPrompt sharedOf st a)
      match lookupAdj g st.curr with
      | some opts =>
          let res :=
            if 1 < opts.length then getRoute st.endName opts output.toList
            else RouteOut.route 0 output.toList
          match res with
          | RouteOut.route i out =>
              match opts.get? i with
              | some nxt =>
                  if nxt = GNode.END then StepOut.finish (String.mk out) st.mem
                  else
                    let r := memAdd st.endName st.mem st.curr nxt (String.mk out)
                    StepOut.cont ⟨nxt, String.mk out, r.fst, r.snd⟩
              | none => StepOut.fail RunErr.indexError
          | RouteOut.fail => StepOut.fail RunErr.valueError
      | none => StepOut.fail RunErr.keyError
  | _ => StepOut.fail RunErr.attrError

/-- What `Graph.invoke` evaluates to: a string returned from inside the loop,
or the implicit `None` when the loop exits because the current node became
END without the look-ahead firing (possible when the node reached from START
is END itself). -/
inductive RunOut where
  | retStr : String → RunOut
  | retNone : RunOut
deriving DecidableEq

/-- The while-loop of `Graph.invoke`, with explicit fuel standing in for the
unbounded iteration (the source has no step limit; exhausted fuel is reported
as `RunErr.fuelEmpty`). -/
def invokeLoop (g : Adj) (sharedOf : AgentData → List GNode)
    (oracle : GNode → String → String) : Nat → LoopState → Except RunErr RunOut
  | 0, _ => Except.error RunErr.fuelEmpty
  | fuel + 1, st =>
      if st.curr = GNode.END then Except.ok RunOut.retNone
      else
        match invokeStep g sharedOf oracle st with
        | StepOut.finish out _ => Except.ok (RunOut.retStr out)
        | StepOut.cont st' => invokeLoop g sharedOf oracle fuel st'
        | StepOut.fail e => Except.error e

/-- `Graph.invoke` (graph.py lines 104-138).  The degenerate branch
`if len(self.nodes) == 2: return prompt` refers to the unbound local
`prompt` (the parameter is named `user_prompt`), so it raises `NameError`.
Otherwise execution starts at `self.edges[START][0]` with an empty global
memory and the user prompt. -/
def graphInvoke (g : Adj) (sharedOf : AgentData → List GNode)
    (oracle : GNode → String → String) (endName0 : String) (fuel : Nat)
    (user_prompt : String) : Except RunErr RunOut :=
  if (keysOf g).length = 2 then Except.error RunErr.nameError
  else
    match lookupAdj g GNode.START with
    | some (first :: _) =>
        invokeLoop g sharedOf oracle fuel ⟨first, user_prompt, endName0, []⟩
    | some [] => Except.error RunErr.indexError
    | none => Except.error RunErr.keyError

/-! ## Prompt assembly in `OpenAIAgent.invoke` (agent.py lines 227-323)

`Graph.invoke` (graph.py line 122) performs the call
`curr_node.invoke(author, prompt, self.edges[curr_node], show_thinking)`
against the signature
`Agent.invoke(self, author, prompt, files=[], edges=None, show_thinking=False)`
(agent.py line 63), so positionally the outgoing edge list lands in the
`files` parameter and the `show_thinking` flag lands in the `edges`
parameter; `Agent.invoke` forwards all five positionally to
`OpenAIAgent.invoke`.  The two dynamic argument shapes that can therefore
reach `OpenAIAgent.invoke` are modelled below. -/

/-- Shapes of the `files` argument reaching `OpenAIAgent.invoke`: the default
empty list, or — through the graph driver — the outgoing edge list of Agent
objects. -/
inductive FilesArg where
  | noFiles : FilesArg
  | nodeFiles : List GNode → FilesArg
deriving DecidableEq

/-- Shapes of the `edges` argument reaching `OpenAIAgent.invoke`: a list of
destination nodes, or — through the graph driver — the boolean
`show_thinking` flag. -/
inductive EdgesArg where
  | edgeList : List GNode → EdgesArg
  | boolArg : Bool → EdgesArg
deriving DecidableEq

/-- Python exceptions surfacing from `OpenAIAgent.invoke`'s preprocessing. -/
inductive PyErr where
  | typeError : PyErr
  | indexError : PyErr
deriving DecidableEq

/-- The routing-option line appended per destination (agent.py line 288):
`f"\n\tCommand: '\\\\{name}\\\\'\tDescription: {description}"`, with the END
sentinel rendered under the literal name `END` and the fixed description
below instead of reading its attributes. -/
def routeLine (n : GNode) : String :=
  "\n\tCommand: '\\\\" ++
    (match n with
     | GNode.END => "END"
     | other => nmOf "END" other) ++
    "\\\\'\tDescription: " ++
    (match n with
     | GNode.END => "The end of the graph, to return the final response to the user."
     | GNode.agent a => a.description
     | GNode.START => "")

/-- Header of the multi-edge routing section (agent.py line 286). -/
def routeHeader : String :=
  "## Routing Options:\n\tPrint ONE of the following commands after your response to send your response to that agent. You are required to choose one."

/-- The single-edge disclosure (agent.py line 290), built from `edges[0]`. -/
def routeFixed (n : GNode) : String :=
  "## Routing Disclosure: Your response will be routed to '" ++
    (match n with
     | GNode.END => "END"
     | other => nmOf "END" other) ++
    "'\tDescription: " ++
    (match n with
     | GNode.END => "The end of the graph, to return the final response to the user."
     | GNode.agent a => a.description
     | GNode.START => "")

/-- The `## Routing Options` text for a list of two or more edges: the Python
`+=` loop over `edges` is a left fold appending one line per destination. -/
def routeEnum (edges : List GNode) : String :=
  edges.foldl (fun acc n => acc ++ routeLine n) routeHeader

/-- The text payload assembled by `OpenAIAgent.invoke` (agent.py lines
268-304), given the dynamic `files` and `edges` arguments.  Faithful to the
source's order of effects: `init_input_files(files)` runs first when `files`
is truthy, and calls `os.path.splitext(path)` on each element — a
`TypeError` on an Agent or sentinel object; then the routing section is
built: `if edges and len(edges) > 1` takes `len` of the value (a `TypeError`
on `True`), and the else-branch subscripts `edges[0]` (a `TypeError` on
`False`, an `IndexError` on an empty list). -/
def assembleText (system_prompt chat_prompt : String) (files : FilesArg)
    (edges : EdgesArg) : Except PyErr String :=
  match files with
  | FilesArg.nodeFiles (_ :: _) => Except.error PyErr.typeError
  | _ =>
      match edges with
      | EdgesArg.boolArg _ => Except.error PyErr.typeError
      | EdgesArg.edgeList l =>
          (fun routing =>
            "## System Prompt: " ++ system_prompt ++ "\n\n## Chat Prompt: " ++
              chat_prompt ++ "\n\n" ++ "" ++ "\n\n" ++ routing) <$>
          (if 1 < l.length then Except.ok (routeEnum l)
           else
             match l with
             | e :: _ => Except.ok (routeFixed e)
             | [] => Except.error PyErr.indexError)

/-- The node invocation exactly as driven by `Graph.invoke` (graph.py line
122): the outgoing edge list arrives in the `files` slot and the
`show_thinking` flag in the `edges` slot. -/
def graphDrivenAssemble (system_prompt chat_prompt : String)
    (outgoing : List GNode) (show_thinking : Bool) : Except PyErr String :=
  assembleText system_prompt chat_prompt (FilesArg.nodeFiles outgoing)
    (EdgesArg.boolArg show_thinking)

/-! ## Auxiliary definitions used by the theorems -/

/-- A sample agent instance (distinct `aid`s model distinct Python objects). -/
def demoA : AgentData := ⟨0, "A", "expert on topic A"⟩

/-- A second sample agent instance. -/
def demoB : AgentData := ⟨1, "B", "expert on topic B"⟩

/-- A third sample agent instance. -/
def demoC : AgentData := ⟨2, "C", "expert on topic C"⟩

/-- The sample agents as graph nodes. -/
def dA : GNode := GNode.agent demoA

/-- See `dA`. -/
def dB : GNode := GNode.agent demoB

/-- See `dA`. -/
def dC : GNode := GNode.agent demoC

/-- Number of occurrences of a node in a list (used to state how many times a
source listed repeatedly receives the destinations). -/
def cntN (x : GNode) : List GNode → Nat
  | [] => 0
  | y :: rest => (if y = x then 1 else 0) + cntN x rest

/-- The registration invariant of the edges dict: both sentinels are keys and
every node appearing in any adjacency list is itself a key. -/
def GoodAdj (g : Adj) : Prop :=
  GNode.START ∈ keysOf g ∧ GNode.END ∈ keysOf g ∧
    ∀ p ∈ g, ∀ d ∈ p.snd, d ∈ keysOf g

/-- A small graph used as a concrete `Built` state: START, END and one agent
with a single edge to END. -/
def c10Graph : Adj :=
  [(GNode.START, []), (GNode.END, []), (GNode.agent demoA, [GNode.END])]

/-! ## Theorems -/

lemma contains_eq_mem {α : Type} [DecidableEq α] (l : List α) (s : α) :
    l.contains s = decide (s ∈ l) := by
  induction l with
  | nil => rfl
  | cons a rest ih =>
      by_cases h : s = a
      · simp [h]
      · simp [List.contains_cons, ih, h, Ne.symm h]

lemma filter_fmt_eq_spec (an rn : List String) (mem : List MemRecord) :
    (mem.filter (fun r => an.contains r.author && rn.contains r.recipient)).map
        fmtLine = formattedLinesSpec an rn mem := by
  induction mem with
  | nil => rfl
  | cons r rest ih =>
      rw [List.filter_cons]
      by_cases h1 : r.author ∈ an
      · by_cases h2 : r.recipient ∈ rn
        · have hb : (an.contains r.author && rn.contains r.recipient) = true := by
            rw [contains_eq_mem, contains_eq_mem]; simp [h1, h2]
          rw [hb, if_pos rfl, List.map_cons, ih, formattedLinesSpec,
            if_pos ⟨h1, h2⟩]
        · have hb : (an.contains r.author && rn.contains r.recipient) = false := by
            rw [contains_eq_mem, contains_eq_mem]; simp [h2]
          rw [hb, if_neg (by simp), ih, formattedLinesSpec,
            if_neg (fun hc => h2 hc.2)]
      · have hb : (an.contains r.author && rn.contains r.recipient) = false := by
          rw [contains_eq_mem, contains_eq_mem]; simp [h1]
        rw [hb, if_neg (by simp), ih, formattedLinesSpec,
          if_neg (fun hc => h1 hc.1)]

/-- C6: `Memory.get_formatted` keeps exactly the records whose author name is
among the given authors' names AND whose recipient name is among the given
recipients' names, renders them in insertion order one line per record as
`"{author} -> {recipient}: {content}"` joined by newlines; in particular,
after `add(A, B, "x")` then `add(C, B, "y")`, `get_formatted([A], [B])`
returns exactly `"A -> B: x"`. -/
theorem get_formatted_filters_and_renders :
    (∀ (endName : String) (mem : List MemRecord) (authors recipients : List GNode),
        getFormatted endName mem authors recipients =
          String.intercalate "\n"
            (formattedLinesSpec (authors.map (nmOf endName))
              (recipients.map (nmOf endName)) mem)) ∧
    getFormatted "END" ((memAdd "END" ((memAdd "END" [] dA dB "x").snd) dC dB "y").snd)
        [dA] [dB] = "A -> B: x" := by
  refine ⟨?_, by decide⟩
  intro endName mem authors recipients
  rw [getFormatted, filter_fmt_eq_spec]

/-- C7: `Memory.add` with the END sentinel as recipient sets the sentinel's
name attribute to the literal `"END"` (a mutation that persists in the
resulting state) and appends the record with recipient name `"END"`; any
other recipient leaves the name state unchanged and appends the record built
from the current names. -/
theorem memory_add_end_normalizes :
    ∀ (endName : String) (mem : List MemRecord) (author : GNode) (content : String),
      memAdd endName mem author GNode.END content =
        ("END", mem ++ [⟨nmOf "END" author, "END", content⟩]) ∧
      ∀ recipient, recipient ≠ GNode.END →
        memAdd endName mem author recipient content =
          (endName, mem ++ [⟨nmOf endName author, nmOf endName recipient, content⟩]) := by
  intro endName mem author content
  constructor
  · simp [memAdd, nmOf]
  · intro recipient h
    simp [memAdd, h]

/-- Witness instantiating `memory_add_end_normalizes` at a concrete state with
an END recipient and a non-END recipient. -/
theorem memory_add_end_normalizes_witness :
    memAdd "node-END" [] dA GNode.END "bye" =
        ("END", [⟨"A", "END", "bye"⟩]) ∧
      memAdd "node-END" [] dA dB "hi" =
        ("node-END", [⟨"A", "B", "hi"⟩]) := by
  have h := memory_add_end_normalizes "node-END" [] dA "bye"
  have h2 := memory_add_end_normalizes "node-END" [] dA "hi"
  exact ⟨h.1, h2.2 dB (by decide)⟩

lemma anyArgEq_anode_false (s : String) (l : List GNode) :
    ((l.map PyArg.anode).any (fun v => pyArgEq (PyArg.astr s) v)) = false := by
  induction l with
  | nil => rfl
  | cons n rest ih => simp [pyArgEq, ih]

/-- C9: `Memory.get` tests raw membership of the stored name strings in the
collections passed, so called with lists of Agent objects (as its annotations
suggest) it always returns the empty list, while `get_formatted` with the
same Agent-object arguments maps each to its name first and can return
matching records. -/
theorem memory_get_expects_names_not_agents :
    (∀ (mem : List MemRecord) (authors recipients : List GNode),
        memGet mem (authors.map PyArg.anode) (recipients.map PyArg.anode) = []) ∧
    memGet [⟨"A", "B", "x"⟩] ([dA].map PyArg.anode) ([dB].map PyArg.anode) = [] ∧
    getFormatted "END" [⟨"A", "B", "x"⟩] [dA] [dB] = "A -> B: x" := by
  refine ⟨?_, by decide, by decide⟩
  intro mem authors recipients
  rw [memGet]
  apply List.filter_eq_nil_iff.mpr
  intro r _
  simp [anyArgEq_anode_false]

/-- C8 (code evaluated at the failing input): with only the two sentinel
nodes registered, `Graph.invoke` takes the branch
`if len(self.nodes) == 2: return prompt`, whose `prompt` is an unbound local
(the parameter is `user_prompt`), so the call raises `NameError` instead of
returning the input prompt unchanged. -/
theorem invoke_degenerate_raises_name_error :
    ∀ (g : Adj) (sharedOf : AgentData → List GNode)
      (oracle : GNode → String → String) (endName0 : String) (fuel : Nat)
      (user_prompt : String),
      (keysOf g).length = 2 →
      graphInvoke g sharedOf oracle endName0 fuel user_prompt =
        Except.error RunErr.nameError := by
  intro g sharedOf oracle endName0 fuel user_prompt h
  rw [graphInvoke, if_pos h]

/-- Witness applying `invoke_degenerate_raises_name_error` to the freshly
constructed graph. -/
theorem invoke_degenerate_raises_name_error_witness :
    (keysOf initGraph).length = 2 ∧
      graphInvoke initGraph (fun _ => []) (fun _ _ => "model output") "END" 5
          "hello" = Except.error RunErr.nameError :=
  ⟨by decide,
    invoke_degenerate_raises_name_error initGraph (fun _ => [])
      (fun _ _ => "model output") "END" 5 "hello" (by decide)⟩

/-- C4 (code evaluated at the failing input): `Graph.invoke` (graph.py line
122) passes the outgoing edge list positionally into `Agent.invoke`'s
`files` parameter and `show_thinking` into its `edges` parameter, so on
every node invocation it drives, `OpenAIAgent.invoke` raises `TypeError`
(in `init_input_files`, on `os.path.splitext` of an Agent object) before any
routing text is assembled; had the arguments been aligned, the multi-edge
prompt would have carried the `## Routing Options` enumeration built by
`routeEnum`. -/
theorem graph_driven_prompt_assembly_raises :
    (∀ (system_prompt chat_prompt : String) (outgoing : List GNode) (b : Bool),
        outgoing ≠ [] →
        graphDrivenAssemble system_prompt chat_prompt outgoing b =
          Except.error PyErr.typeError) ∧
    (∀ (system_prompt chat_prompt : String) (l : List GNode),
        1 < l.length →
        assembleText system_prompt chat_prompt FilesArg.noFiles
            (EdgesArg.edgeList l) =
          Except.ok ("## System Prompt: " ++ system_prompt ++
            "\n\n## Chat Prompt: " ++ chat_prompt ++ "\n\n" ++ "" ++ "\n\n" ++
              routeEnum l)) := by
  constructor
  · intro sp cp l b h
    match l with
    | [] => exact absurd rfl h
    | x :: t => rfl
  · intro sp cp l h
    rw [assembleText.eq_def]
    simp [if_pos h]

/-- Witness applying `graph_driven_prompt_assembly_raises` to a node with the
two outgoing edges `[B, END]`. -/
theorem graph_driven_prompt_assembly_raises_witness :
    graphDrivenAssemble "You are an agent." "hello" [dB, GNode.END] false =
        Except.error PyErr.typeError ∧
      assembleText "You are an agent." "hello" FilesArg.noFiles
          (EdgesArg.edgeList [dB, GNode.END]) =
        Except.ok ("## System Prompt: You are an agent.\n\n## Chat Prompt: hello\n\n\n\n" ++
          routeEnum [dB, GNode.END]) := by
  have h := graph_driven_prompt_assembly_raises
  refine ⟨h.1 _ _ _ _ (by decide), ?_⟩
  have h2 := h.2 "You are an agent." "hello" [dB, GNode.END] (by decide)
  simpa using h2

lemma scanIdx_eq_none {p : GNode → Bool} :
    ∀ {l : List GNode}, (∀ o ∈ l, p o = false) → scanIdx p l = none := by
  intro l
  induction l with
  | nil => intro _; rfl
  | cons o rest ih =>
      intro h
      rw [scanIdx, h o (by simp), if_neg (by simp),
        ih (fun x hx => h x (by simp [hx]))]
      rfl

/-- C2 counterexample: with two outgoing destinations named `A` and `B` and
the output `"go \\C\\ after"`, the captured name `C` matches no destination
and is not `END`, yet `_get_route` returns the output with the command
stripped (`"go  after"`), not the output unmodified as the claim states. -/
theorem get_route_unmatched_strips_counterexample :
    getRoute "END" [dA, dB] ("go \\\\C\\\\ after").toList =
        RouteOut.route 0 ("go  after").toList ∧
      getRoute "END" [dA, dB] ("go \\\\C\\\\ after").toList ≠
        RouteOut.route 0 ("go \\\\C\\\\ after").toList := by
  constructor
  · decide
  · decide

/-- C2 (amended): with at least two outgoing edges, `_get_route` never raises
and defaults to index 0 both when no delimited command is found (output
returned unmodified) and when the captured name is neither `END` nor any
destination's name — but in the latter case the first occurrence of the
delimited command has been stripped from the returned output. -/
theorem get_route_defaults_to_first_edge :
    ∀ (endName : String) (opts : List GNode) (out : Chars),
      2 ≤ opts.length →
      (findCommand out = none → getRoute endName opts out = RouteOut.route 0 out) ∧
      (∀ m, findCommand out = some m → m ≠ "END".toList →
        (∀ o ∈ opts, (nmOf endName o).toList ≠ m) →
        getRoute endName opts out =
          RouteOut.route 0 (removeFirst (bs2 ++ m ++ bs2) out)) := by
  intro endName opts out _
  constructor
  · intro h
    rw [getRoute, h]
  · intro m hm hne hno
    rw [getRoute, hm]
    have hn : scanIdx (fun o => (nmOf endName o).toList == m) opts = none := by
      apply scanIdx_eq_none
      intro o ho
      exact beq_eq_false_iff_ne.mpr (hno o ho)
    simp only [if_neg hne, hn]

/-- Witness applying `get_route_defaults_to_first_edge` to a command-free
output and to an output whose command `Z` matches no destination. -/
theorem get_route_defaults_to_first_edge_witness :
    getRoute "END" [dA, dB] ("no route here").toList =
        RouteOut.route 0 ("no route here").toList ∧
      getRoute "END" [dA, dB] ("pick \\\\Z\\\\").toList =
        RouteOut.route 0
          (removeFirst (bs2 ++ "Z".toList ++ bs2) ("pick \\\\Z\\\\").toList) := by
  have h1 := get_route_defaults_to_first_edge "END" [dA, dB]
    ("no route here").toList (by decide)
  have h2 := get_route_defaults_to_first_edge "END" [dA, dB]
    ("pick \\\\Z\\\\").toList (by decide)
  exact ⟨h1.1 (by decide), h2.2 ("Z".toList) (by decide) (by decide) (by decide)⟩

lemma keysOf_appendAdj (g : Adj) (n1 n2 : GNode) :
    keysOf (appendAdj g n1 n2) = keysOf g := by
  induction g with
  | nil => rfl
  | cons p rest ih =>
      obtain ⟨k, v⟩ := p
      rw [appendAdj]
      by_cases h : k = n1
      · rw [if_pos h]; rfl
      · rw [if_neg h, keysOf, List.map_cons, keysOf, List.map_cons]
        exact congrArg _ ih

lemma lookupAdj_appendAdj (g : Adj) (n1 n2 x : GNode) :
    lookupAdj (appendAdj g n1 n2) x =
      if x = n1 then (lookupAdj g n1).map (· ++ [n2]) else lookupAdj g x := by
  induction g with
  | nil =>
      by_cases hx : x = n1 <;> simp [appendAdj, lookupAdj, hx]
  | cons p rest ih =>
      obtain ⟨k, v⟩ := p
      by_cases h : k = n1
      · subst h
        by_cases hx : x = k
        · subst hx
          simp [appendAdj, lookupAdj]
        · simp [appendAdj, lookupAdj, hx, Ne.symm hx]
      · by_cases hk : k = x
        · subst hk
          simp [appendAdj, lookupAdj, h, fun hh : k = n1 => h hh]
        · simp [appendAdj, lookupAdj, h, hk, ih]


lemma addEdgeInner_all_registered (n1 : GNode) :
    ∀ (n2s : List GNode) (g : Adj),
      (∀ n ∈ n2s, n = n1 ∨ n ∈ keysOf g) →
      (addEdgeInner g n1 n2s).snd = none ∧
      keysOf (addEdgeInner g n1 n2s).fst = keysOf g ∧
      ∀ x, lookupAdj (addEdgeInner g n1 n2s).fst x =
        if x = n1 then
          (lookupAdj g n1).map (· ++ n2s.filter (fun d => d != n1))
        else lookupAdj g x := by
  intro n2s
  induction n2s with
  | nil =>
      intro g _
      refine ⟨rfl, rfl, ?_⟩
      intro x
      by_cases hx : x = n1
      · subst hx
        rw [if_pos rfl]
        cases h : lookupAdj g x with
        | none => simp [addEdgeInner, h]
        | some v => simp [addEdgeInner, h]
      · rw [if_neg hx]
        rfl
  | cons d rest ih =>
      intro g h
      rw [addEdgeInner]
      by_cases hd : n1 = d
      · subst hd
        rw [if_pos rfl]
        have hfil : List.filter (fun d => d != n1) (n1 :: rest) =
            List.filter (fun d => d != n1) rest := by
          rw [List.filter_cons]
          simp
        have hr := ih g (fun n hn => h n (by simp [hn]))
        refine ⟨hr.1, hr.2.1, ?_⟩
        intro x
        rw [hr.2.2 x, hfil]
      · rw [if_neg hd]
        have hdk : d ∈ keysOf g := by
          rcases h d (by simp) with h1 | h1
          · exact absurd h1.symm hd
          · exact h1
        rw [if_pos (by rw [contains_eq_mem]; exact decide_eq_true hdk)]
        have hdb : (d != n1) = true := by
          simp only [bne_iff_ne, ne_eq]
          exact fun hh => hd hh.symm
        have hfil : List.filter (fun e => e != n1) (d :: rest) =
            d :: List.filter (fun e => e != n1) rest := by
          rw [List.filter_cons, if_pos hdb]
        have hr := ih (appendAdj g n1 d)
          (fun n hn => by
            rcases h n (by simp [hn]) with h1 | h1
            · exact Or.inl h1
            · exact Or.inr (by rw [keysOf_appendAdj]; exact h1))
        refine ⟨hr.1, by rw [hr.2.1, keysOf_appendAdj], ?_⟩
        intro x
        rw [hr.2.2 x, hfil]
        by_cases hx : x = n1
        · subst hx
          rw [if_pos rfl, if_pos rfl, lookupAdj_appendAdj, if_pos rfl,
            Option.map_map]
          cases hg : lookupAdj g x with
          | none => rfl
          | some v => simp
        · rw [if_neg hx, if_neg hx, lookupAdj_appendAdj, if_neg hx]

lemma addEdge_all_registered :
    ∀ (n1s : List GNode) (n2s : List GNode) (g : Adj),
      (∀ n ∈ n1s, n ∈ keysOf g) →
      (∀ n ∈ n2s, n ∈ keysOf g) →
      (addEdge g n1s n2s).snd = none ∧
      keysOf (addEdge g n1s n2s).fst = keysOf g ∧
      ∀ x, lookupAdj (addEdge g n1s n2s).fst x =
        (lookupAdj g x).map
          (fun l =>
            l ++ (List.replicate (cntN x n1s)
              (n2s.filter (fun d => d != x))).flatten) := by
  intro n1s
  induction n1s with
  | nil =>
      intro n2s g _ _
      refine ⟨rfl, rfl, ?_⟩
      intro x
      cases h : lookupAdj g x with
      | none => simp [addEdge, h, cntN]
      | some v => simp [addEdge, h, cntN]
  | cons n1 rest ih =>
      intro n2s g h1 h2
      rw [addEdge]
      rw [if_pos (by rw [contains_eq_mem]; exact decide_eq_true (h1 n1 (by simp)))]
      have hinner := addEdgeInner_all_registered n1 n2s g
        (fun n hn => Or.inr (h2 n hn))
      obtain ⟨he, hk, hl⟩ := hinner
      obtain ⟨g', e⟩ : ∃ p, addEdgeInner g n1 n2s = p := ⟨_, rfl⟩
      obtain ⟨g'', err⟩ := g'
      rw [e] at he hk hl ⊢
      simp only at he hk hl
      subst he
      have hrest := ih n2s g''
        (fun n hn => by rw [hk]; exact h1 n (by simp [hn]))
        (fun n hn => by rw [hk]; exact h2 n hn)
      refine ⟨hrest.1, by rw [hrest.2.1, hk], ?_⟩
      intro x
      rw [hrest.2.2 x, hl x]
      by_cases hx : x = n1
      · subst hx
        have hcnt : cntN x (x :: rest) = cntN x rest + 1 := by
          rw [cntN, if_pos rfl, Nat.add_comm]
        rw [if_pos rfl, Option.map_map, hcnt, List.replicate_succ,
          List.flatten_cons]
        cases hg : lookupAdj g x with
        | none => rfl
        | some v => simp
      · have hcnt : cntN x (n1 :: rest) = cntN x rest := by
          rw [cntN, if_neg (fun hh => hx hh.symm), Nat.zero_add]
        rw [if_neg hx, hcnt]

/-- C5 counterexample: with `A` and `C` registered but `B` never added,
`add_edge(A, [C, B])` raises the `ValueError` for `B` only after appending
`C` to `A`'s outgoing list, so the graph's edge state after the failed call
differs from the state before it — the claim's "edge state is unchanged" is
false. -/
theorem add_edge_partial_mutation_counterexample :
    (addEdge (addNode (addNode initGraph demoA) demoC) [dA] [dC, dB]).snd =
        some (EdgeErr.invalidNode dB) ∧
      lookupAdj (addEdge (addNode (addNode initGraph demoA) demoC) [dA]
          [dC, dB]).fst dA = some [dC] ∧
      lookupAdj (addNode (addNode initGraph demoA) demoC) dA = some [] := by
  refine ⟨by decide, by decide, by decide⟩

/-- C5 (amended): when every referenced node is registered, `add_edge`
appends exactly one destination per source×destination pair in the order
given, skipping pairs whose source and destination are the identical node
instance (each key's list is extended by the non-self destinations once per
occurrence of that key among the sources); when a referenced node was never
registered the call raises a ValueError-kind error, with appends performed
before the offending reference retained — in particular, for a single source
and a single destination the edge state is unchanged on error. -/
theorem add_edge_appends_or_raises :
    (∀ (g : Adj) (n1s n2s : List GNode),
        (∀ n ∈ n1s, n ∈ keysOf g) →
        (∀ n ∈ n2s, n ∈ keysOf g) →
        (addEdge g n1s n2s).snd = none ∧
        ∀ x, lookupAdj (addEdge g n1s n2s).fst x =
          (lookupAdj g x).map
            (fun l =>
              l ++ (List.replicate (cntN x n1s)
                (n2s.filter (fun d => d != x))).flatten)) ∧
    (∀ (g : Adj) (n1 n2 : GNode),
        n1 ∉ keysOf g ∨ (n2 ∉ keysOf g ∧ n1 ≠ n2) →
        (addEdge g [n1] [n2]).fst = g ∧ (addEdge g [n1] [n2]).snd ≠ none) := by
  constructor
  · intro g n1s n2s h1 h2
    have h := addEdge_all_registered n1s n2s g h1 h2
    exact ⟨h.1, h.2.2⟩
  · intro g n1 n2 h
    by_cases hk : n1 ∈ keysOf g
    · rcases h with h1 | ⟨h2, h3⟩
      · contradiction
      · have hc2 : ¬((keysOf g).contains n2 = true) := by
          rw [contains_eq_mem]
          simp [h2]
        rw [addEdge, if_pos (by rw [contains_eq_mem]; exact decide_eq_true hk),
          addEdgeInner, if_neg h3, if_neg hc2]
        exact ⟨rfl, by simp⟩
    · have hc1 : ¬((keysOf g).contains n1 = true) := by
        rw [contains_eq_mem]
        simp [hk]
      rw [addEdge, if_neg hc1]
      exact ⟨rfl, by simp⟩

/-- Witness applying `add_edge_appends_or_raises`: a fully registered call
`add_edge(A, [B, END])`, and a single-pair call targeting the unregistered
`B`. -/
theorem add_edge_appends_or_raises_witness :
    ((addEdge (addNode (addNode initGraph demoA) demoB) [dA]
          [dB, GNode.END]).snd = none ∧
      ∀ x, lookupAdj (addEdge (addNode (addNode initGraph demoA) demoB) [dA]
          [dB, GNode.END]).fst x =
        (lookupAdj (addNode (addNode initGraph demoA) demoB) x).map
          (fun l =>
            l ++ (List.replicate (cntN x [dA])
              ([dB, GNode.END].filter (fun d => d != x))).flatten)) ∧
    ((addEdge (addNode initGraph demoA) [dA] [dB]).fst =
        addNode initGraph demoA ∧
      (addEdge (addNode initGraph demoA) [dA] [dB]).snd ≠ none) := by
  constructor
  · exact add_edge_appends_or_raises.1 _ _ _ (by decide) (by decide)
  · exact add_edge_appends_or_raises.2 _ _ _ (Or.inr ⟨by decide, by decide⟩)

lemma mem_setAdj {g : Adj} {n : GNode} {l : List GNode} :
    ∀ p ∈ setAdj g n l, p ∈ g ∨ p = (n, l) := by
  induction g with
  | nil =>
      intro p hp
      simp [setAdj] at hp
      exact Or.inr hp
  | cons q rest ih =>
      obtain ⟨k, v⟩ := q
      intro p hp
      rw [setAdj] at hp
      by_cases h : k = n
      · rw [if_pos h] at hp
        rcases List.mem_cons.mp hp with h1 | h1
        · exact Or.inr h1
        · exact Or.inl (List.mem_cons_of_mem _ h1)
      · rw [if_neg h] at hp
        rcases List.mem_cons.mp hp with h1 | h1
        · exact Or.inl (h1 ▸ List.mem_cons_self _ _)
        · rcases ih p h1 with h2 | h2
          · exact Or.inl (List.mem_cons_of_mem _ h2)
          · exact Or.inr h2

lemma mem_keysOf_setAdj {g : Adj} {n x : GNode} {l : List GNode}
    (h : x ∈ keysOf g) : x ∈ keysOf (setAdj g n l) := by
  induction g with
  | nil => simp [keysOf] at h
  | cons q rest ih =>
      obtain ⟨k, v⟩ := q
      rw [setAdj]
      by_cases hk : k = n
      · rw [if_pos hk]
        rcases List.mem_cons.mp h with h1 | h1
        · simp [keysOf, hk ▸ h1]
        · simp [keysOf]
          exact Or.inr (by simpa [keysOf] using h1)
      · rw [if_neg hk]
        rcases List.mem_cons.mp h with h1 | h1
        · simp [keysOf, h1]
        · simp [keysOf]
          exact Or.inr (by simpa [keysOf] using ih (by simpa [keysOf] using h1))

lemma mem_appendAdj {g : Adj} {n1 n2 : GNode} :
    ∀ p ∈ appendAdj g n1 n2, p ∈ g ∨ ∃ v, (p.fst, v) ∈ g ∧ p.snd = v ++ [n2] := by
  induction g with
  | nil =>
      intro p hp
      simp [appendAdj] at hp
  | cons q rest ih =>
      obtain ⟨k, v⟩ := q
      intro p hp
      rw [appendAdj] at hp
      by_cases h : k = n1
      · rw [if_pos h] at hp
        rcases List.mem_cons.mp hp with h1 | h1
        · exact Or.inr ⟨v, by simp [h1], by simp [h1]⟩
        · exact Or.inl (List.mem_cons_of_mem _ h1)
      · rw [if_neg h] at hp
        rcases List.mem_cons.mp hp with h1 | h1
        · exact Or.inl (h1 ▸ List.mem_cons_self _ _)
        · rcases ih p h1 with h2 | ⟨w, hw, hs⟩
          · exact Or.inl (List.mem_cons_of_mem _ h2)
          · exact Or.inr ⟨w, List.mem_cons_of_mem _ hw, hs⟩

lemma goodAdj_appendAdj {g : Adj} {n1 n2 : GNode} (hg : GoodAdj g)
    (h2 : n2 ∈ keysOf g) : GoodAdj (appendAdj g n1 n2) := by
  obtain ⟨hs, he, hv⟩ := hg
  refine ⟨by rw [keysOf_appendAdj]; exact hs, by rw [keysOf_appendAdj]; exact he, ?_⟩
  intro p hp d hd
  rw [keysOf_appendAdj]
  rcases mem_appendAdj p hp with h1 | ⟨w, hw, hsnd⟩
  · exact hv p h1 d hd
  · rw [hsnd] at hd
    rcases List.mem_append.mp hd with h3 | h3
    · exact hv (p.fst, w) hw d h3
    · rw [List.mem_singleton.mp h3]
      exact h2

lemma goodAdj_addNode {g : Adj} {a : AgentData} (hg : GoodAdj g) :
    GoodAdj (addNode g a) := by
  obtain ⟨hs, he, hv⟩ := hg
  refine ⟨mem_keysOf_setAdj hs, mem_keysOf_setAdj he, ?_⟩
  intro p hp d hd
  rcases mem_setAdj p hp with h1 | h1
  · exact mem_keysOf_setAdj (hv p h1 d hd)
  · rw [h1] at hd
    simp at hd

lemma goodAdj_addEdgeInner (n1 : GNode) :
    ∀ (n2s : List GNode) (g : Adj), GoodAdj g →
      GoodAdj (addEdgeInner g n1 n2s).fst := by
  intro n2s
  induction n2s with
  | nil => intro g hg; exact hg
  | cons d rest ih =>
      intro g hg
      rw [addEdgeInner]
      by_cases hd : n1 = d
      · rw [if_pos hd]
        exact ih g hg
      · rw [if_neg hd]
        by_cases hc : (keysOf g).contains d = true
        · rw [if_pos hc]
          have hdk : d ∈ keysOf g := by
            rw [contains_eq_mem] at hc
            exact of_decide_eq_true hc
          exact ih (appendAdj g n1 d) (goodAdj_appendAdj hg hdk)
        · rw [if_neg hc]
          exact hg

lemma goodAdj_addEdge :
    ∀ (n1s n2s : List GNode) (g : Adj), GoodAdj g →
      GoodAdj (addEdge g n1s n2s).fst := by
  intro n1s
  induction n1s with
  | nil => intro n2s g hg; exact hg
  | cons n1 rest ih =>
      intro n2s g hg
      rw [addEdge]
      by_cases hc : (keysOf g).contains n1 = true
      · rw [if_pos hc]
        have hinner := goodAdj_addEdgeInner n1 n2s g hg
        obtain ⟨p, e⟩ : ∃ p, addEdgeInner g n1 n2s = p := ⟨_, rfl⟩
        obtain ⟨g', err⟩ := p
        rw [e] at hinner ⊢
        cases err with
        | none => exact ih n2s g' hinner
        | some ee => exact hinner
      · rw [if_neg hc]
        exact hg

/-- C10: every graph state reachable by a sequence of `add_node` and
successful `add_edge` calls keeps the two sentinels among the keys of the
edges dict and keeps every node appearing in any adjacency list registered
as a key: `add_edge` validates both endpoints before appending and
`add_node` only adds or resets keys, never removing one. -/
theorem built_graph_invariant :
    ∀ (g : Adj), Built g →
      GNode.START ∈ keysOf g ∧ GNode.END ∈ keysOf g ∧
        ∀ p ∈ g, ∀ d ∈ p.snd, d ∈ keysOf g := by
  intro g hb
  induction hb with
  | init => decide
  | node a _ ih => exact goodAdj_addNode ih
  | @edge g1 g2 n1s n2s _ he ih =>
      have hgood := goodAdj_addEdge n1s n2s g1 ih
      rw [he] at hgood
      exact hgood

/-- Witness applying `built_graph_invariant` to the concrete build sequence
`Graph(); add_node(A); add_edge(A, END)`. -/
theorem built_graph_invariant_witness :
    GNode.START ∈ keysOf c10Graph ∧ GNode.END ∈ keysOf c10Graph ∧
      ∀ p ∈ c10Graph, ∀ d ∈ p.snd, d ∈ keysOf c10Graph :=
  built_graph_invariant c10Graph
    (@Built.edge (addNode initGraph demoA) c10Graph [dA] [GNode.END]
      (Built.node demoA Built.init) (by decide))

lemma scanIdx_some_spec {p : GNode → Bool} :
    ∀ {l : List GNode} {i : Nat}, scanIdx p l = some i →
      ∃ h : i < l.length, p (l.get ⟨i, h⟩) = true ∧
        ∀ j (hj : j < l.length), j < i → p (l.get ⟨j, hj⟩) = false := by
  intro l
  induction l with
  | nil => intro i h; simp [scanIdx] at h
  | cons o rest ih =>
      intro i h
      rw [scanIdx] at h
      by_cases hp : p o = true
      · rw [if_pos hp] at h
        obtain rfl : (0 : Nat) = i := Option.some.inj h
        refine ⟨by simp, by simpa using hp, ?_⟩
        intro j hj hji
        omega
      · rw [if_neg hp] at h
        obtain ⟨i', hi', rfl⟩ : ∃ i', scanIdx p rest = some i' ∧ i = i' + 1 := by
          cases hs : scanIdx p rest with
          | none => rw [hs] at h; simp at h
          | some k =>
              rw [hs] at h
              simp only [Option.map_some'] at h
              exact ⟨k, rfl, (Option.some.inj h).symm⟩
        obtain ⟨hlt, hpi, hprev⟩ := ih hi'
        refine ⟨by simpa using Nat.succ_lt_succ hlt, by simpa using hpi, ?_⟩
        intro j hj hji
        cases j with
        | zero => simpa using Bool.eq_false_iff.mpr hp
        | succ j' =>
            exact hprev j' (Nat.lt_of_succ_lt_succ hj) (Nat.lt_of_succ_lt_succ hji)

lemma scanIdx_isSome_of_mem {p : GNode → Bool} :
    ∀ {l : List GNode}, (∃ o ∈ l, p o = true) → ∃ i, scanIdx p l = some i := by
  intro l
  induction l with
  | nil => rintro ⟨o, ho, _⟩; simp at ho
  | cons o rest ih =>
      rintro ⟨o', ho', hpo'⟩
      by_cases hpo : p o = true
      · exact ⟨0, by rw [scanIdx, if_pos hpo]⟩
      · rcases List.mem_cons.mp ho' with h1 | h1
        · exact absurd (h1 ▸ hpo') hpo
        · obtain ⟨i, hi⟩ := ih ⟨o', h1, hpo'⟩
          exact ⟨i + 1, by rw [scanIdx, if_neg hpo, hi]; rfl⟩

/-- C3: whenever the driver loop resolves the next node to the END sentinel,
`invoke` returns the (possibly routing-stripped) output immediately and the
global memory is left exactly as it was — the final hop is not recorded; and
whenever the captured routing name is the literal `END` and END is present
among the options, `_get_route` resolves to END's (first) index in that
list, with the `\\END\\` command stripped from the output. -/
theorem invoke_end_short_circuit :
    (∀ (g : Adj) (sharedOf : AgentData → List GNode)
        (oracle : GNode → String → String) (st : LoopState) (a : AgentData)
        (opts : List GNode) (i : Nat) (out : Chars) (fuel : Nat),
      st.curr = GNode.agent a →
      lookupAdj g st.curr = some opts →
      (if 1 < opts.length
        then getRoute st.endName opts
          (oracle st.curr (stepPrompt sharedOf st a)).toList
        else RouteOut.route 0
          (oracle st.curr (stepPrompt sharedOf st a)).toList) =
            RouteOut.route i out →
      opts.get? i = some GNode.END →
      invokeStep g sharedOf oracle st = StepOut.finish (String.mk out) st.mem ∧
      invokeLoop g sharedOf oracle (fuel + 1) st =
        Except.ok (RunOut.retStr (String.mk out))) ∧
    (∀ (endName : String) (opts : List GNode) (output : Chars),
      findCommand output = some ("END".toList) →
      GNode.END ∈ opts →
      ∃ i, getRoute endName opts output =
          RouteOut.route i (removeFirst (bs2 ++ "END".toList ++ bs2) output) ∧
        ∃ h : i < opts.length, opts.get ⟨i, h⟩ = GNode.END ∧
          ∀ j (hj : j < opts.length), j < i → opts.get ⟨j, hj⟩ ≠ GNode.END) := by
  constructor
  · intro g sharedOf oracle st a opts i out fuel hcurr hlook hroute hget
    have hstep : invokeStep g sharedOf oracle st =
        StepOut.finish (String.mk out) st.mem := by
      rw [invokeStep.eq_def, hcurr]
      rw [hcurr] at hlook hroute
      simp only [hlook, hroute, hget]
      simp
    refine ⟨hstep, ?_⟩
    rw [invokeLoop, if_neg (by rw [hcurr]; exact fun h => GNode.noConfusion h),
      hstep]
  · intro endName opts output hfind hmem
    have hred : getRoute endName opts output =
        match scanIdx (fun o => o == GNode.END) opts with
        | some i =>
            RouteOut.route i (removeFirst (bs2 ++ "END".toList ++ bs2) output)
        | none => RouteOut.fail := by
      rw [getRoute, hfind]
      rfl
    obtain ⟨i, hi⟩ :=
      scanIdx_isSome_of_mem (p := fun o => o == GNode.END)
        ⟨GNode.END, hmem, by simp⟩
    obtain ⟨hlt, hpi, hprev⟩ := scanIdx_some_spec hi
    refine ⟨i, by rw [hred, hi], hlt, eq_of_beq hpi, ?_⟩
    intro j hj hji
    exact beq_eq_false_iff_ne.mp (hprev j hj hji)

/-- Witness applying `invoke_end_short_circuit` to a concrete step: node `A`
with outgoing edges `[B, END]` emits `"done \\END\\"`, the engine strips the
command, returns `"done "` and records nothing. -/
theorem invoke_end_short_circuit_witness :
    (invokeStep [(GNode.START, [dA]), (GNode.END, []), (dA, [dB, GNode.END]),
          (dB, [])] (fun _ => []) (fun _ _ => "done \\\\END\\\\")
          ⟨dA, "hi", "END", []⟩ =
        StepOut.finish (String.mk ("done ").toList) [] ∧
      invokeLoop [(GNode.START, [dA]), (GNode.END, []), (dA, [dB, GNode.END]),
          (dB, [])] (fun _ => []) (fun _ _ => "done \\\\END\\\\") 3
          ⟨dA, "hi", "END", []⟩ =
        Except.ok (RunOut.retStr (String.mk ("done ").toList))) ∧
    (∃ i, getRoute "END" [dB, GNode.END] ("go \\\\END\\\\").toList =
        RouteOut.route i
          (removeFirst (bs2 ++ "END".toList ++ bs2) ("go \\\\END\\\\").toList) ∧
      ∃ h : i < [dB, GNode.END].length, [dB, GNode.END].get ⟨i, h⟩ = GNode.END ∧
        ∀ j (hj : j < [dB, GNode.END].length), j < i →
          [dB, GNode.END].get ⟨j, hj⟩ ≠ GNode.END) := by
  constructor
  · exact invoke_end_short_circuit.1
      [(GNode.START, [dA]), (GNode.END, []), (dA, [dB, GNode.END]), (dB, [])]
      (fun _ => []) (fun _ _ => "done \\\\END\\\\") ⟨dA, "hi", "END", []⟩
      demoA [dB, GNode.END] 1 (("done ").toList) 2 rfl (by decide) (by decide)
      (by decide)
  · exact invoke_end_short_circuit.2 "END" [dB, GNode.END]
      (("go \\\\END\\\\").toList) (by decide) (by decide)

lemma string_toList_inj {s t : String} (h : s.toList = t.toList) : s = t := by
  cases s with
  | mk d1 =>
      cases t with
      | mk d2 =>
          have h2 : d1 = d2 := h
          rw [h2]

lemma lazyCapture_decomp :
    ∀ (r m : Chars), lazyCapture r = some m → ∃ B, r = m ++ bs2 ++ B := by
  intro r
  induction r with
  | nil => intro m h; simp [lazyCapture] at h
  | cons c rest ih =>
      intro m h
      cases rest with
      | nil => simp [lazyCapture] at h
      | cons d rest' =>
          rw [lazyCapture] at h
          by_cases hcd : c = '\\' ∧ d = '\\'
          · rw [if_pos hcd] at h
            obtain rfl : ([] : Chars) = m := Option.some.inj h
            exact ⟨rest', by simp [bs2, hcd.1, hcd.2]⟩
          · rw [if_neg hcd] at h
            obtain ⟨m', hm', rfl⟩ :
                ∃ m', lazyCapture (d :: rest') = some m' ∧ m = c :: m' := by
              cases hl : lazyCapture (d :: rest') with
              | none => rw [hl] at h; simp at h
              | some k =>
                  rw [hl] at h
                  simp only [Option.map_some'] at h
                  exact ⟨k, rfl, (Option.some.inj h).symm⟩
            obtain ⟨B, hB⟩ := ih m' hm'
            exact ⟨B, by simp [hB]⟩

lemma findCommand_decomp :
    ∀ (s m : Chars), findCommand s = some m →
      ∃ A B, s = A ++ (bs2 ++ m ++ bs2) ++ B := by
  intro s
  induction s with
  | nil => intro m h; simp [findCommand] at h
  | cons c rest ih =>
      intro m h
      cases rest with
      | nil => simp [findCommand] at h
      | cons d rest' =>
          rw [findCommand] at h
          by_cases hcd : c = '\\' ∧ d = '\\'
          · rw [if_pos hcd] at h
            obtain ⟨B, hB⟩ := lazyCapture_decomp rest' m h
            refine ⟨[], B, ?_⟩
            simp [bs2, hcd.1, hcd.2, hB]
          · rw [if_neg hcd] at h
            obtain ⟨A, B, hAB⟩ := ih m h
            exact ⟨c :: A, B, by simp [hAB]⟩

lemma leadsWith_iff (p : Chars) :
    ∀ (s : Chars), leadsWith p s = true ↔ ∃ t, s = p ++ t := by
  induction p with
  | nil =>
      intro s
      simp [leadsWith]
  | cons c p' ih =>
      intro s
      cases s with
      | nil =>
          simp [leadsWith]
      | cons d s' =>
          rw [leadsWith]
          constructor
          · intro h
            obtain ⟨h1, h2⟩ := Bool.and_eq_true_iff.mp h
            obtain ⟨t, ht⟩ := (ih s').mp h2
            exact ⟨t, by simp [ht, of_decide_eq_true h1]⟩
          · rintro ⟨t, ht⟩
            have h1 : d = c ∧ s' = p' ++ t := by simpa using ht
            rw [Bool.and_eq_true_iff]
            exact ⟨decide_eq_true h1.1.symm, (ih s').mpr ⟨t, h1.2⟩⟩

lemma removeFirst_spec (pat : Chars) (hp : pat ≠ []) :
    ∀ (s A0 B0 : Chars), s = A0 ++ pat ++ B0 →
      ∃ A B, s = A ++ pat ++ B ∧ removeFirst pat s = A ++ B ∧
        ∀ A' B', s = A' ++ pat ++ B' → A.length ≤ A'.length := by
  intro s
  induction s with
  | nil =>
      intro A0 B0 h
      exfalso
      have h2 := h.symm
      simp only [List.append_eq_nil, List.append_assoc] at h2
      exact hp h2.2.1
  | cons c rest ih =>
      intro A0 B0 h
      by_cases hl : leadsWith pat (c :: rest) = true
      · obtain ⟨t, ht⟩ := (leadsWith_iff pat (c :: rest)).mp hl
        refine ⟨[], t, by simpa using ht, ?_, ?_⟩
        · rw [removeFirst, if_pos hl, ht, List.drop_left]
          rfl
        · intro A' B' _
          simp
      · have hA0 : A0 ≠ [] := by
          rintro rfl
          exact hl ((leadsWith_iff pat (c :: rest)).mpr ⟨B0, by simpa using h⟩)
        obtain ⟨a, A0', rfl⟩ : ∃ a A0', A0 = a :: A0' := by
          cases A0 with
          | nil => exact absurd rfl hA0
          | cons a A0' => exact ⟨a, A0', rfl⟩
        have hc : c = a ∧ rest = A0' ++ pat ++ B0 := by simpa using h
        obtain ⟨A, B, hAB, hrem, hmin⟩ := ih A0' B0 hc.2
        refine ⟨c :: A, B, by simp [hAB], ?_, ?_⟩
        · rw [removeFirst, if_neg hl, hrem]
          rfl
        · intro A' B' h'
          cases A' with
          | nil =>
              exact absurd ((leadsWith_iff pat (c :: rest)).mpr
                ⟨B', by simpa using h'⟩) hl
          | cons a' A'' =>
              have h2 : rest = A'' ++ pat ++ B' := (by simpa using h' : _ ∧ _).2
              simpa using Nat.succ_le_succ (hmin A'' B' h2)

/-- C1: with at least two outgoing edges and an output containing a delimited
routing command, `_get_route` uses the first regex match `m`; if some
destination is named `m`, it returns the index of the first destination so
named, and the returned output is the input with exactly one occurrence of
the delimited substring removed — the first occurrence.  (The hypotheses for
the `END`-captured case carry the spec's data-model invariant that no real
node is named `END` and that the sentinel displays as `END`.) -/
theorem get_route_first_match_resolution :
    ∀ (endName : String) (opts : List GNode) (s m : Chars),
      1 < opts.length →
      findCommand s = some m →
      (m = "END".toList → endName = "END" ∧
        ∀ a : AgentData, GNode.agent a ∈ opts → a.name ≠ "END") →
      (∃ n ∈ opts, (nmOf endName n).toList = m) →
      ∃ i A B,
        getRoute endName opts s = RouteOut.route i (A ++ B) ∧
        s = A ++ (bs2 ++ m ++ bs2) ++ B ∧
        (∀ A' B', s = A' ++ (bs2 ++ m ++ bs2) ++ B' → A.length ≤ A'.length) ∧
        ∃ h : i < opts.length, (nmOf endName (opts.get ⟨i, h⟩)).toList = m ∧
          ∀ j (hj : j < opts.length), j < i →
            (nmOf endName (opts.get ⟨j, hj⟩)).toList ≠ m := by
  intro endName opts s m _ hfind hEND hmatch
  obtain ⟨A0, B0, h0⟩ := findCommand_decomp s m hfind
  obtain ⟨A, B, hAB, hrem, hmin⟩ :=
    removeFirst_spec (bs2 ++ m ++ bs2) (by simp [bs2]) s A0 B0 h0
  have hred : getRoute endName opts s =
      (if m = "END".toList then
        match scanIdx (fun o => o == GNode.END) opts with
        | some i => RouteOut.route i (removeFirst (bs2 ++ m ++ bs2) s)
        | none => RouteOut.fail
      else
        match scanIdx (fun o => (nmOf endName o).toList == m) opts with
        | some i => RouteOut.route i (removeFirst (bs2 ++ m ++ bs2) s)
        | none => RouteOut.route 0 (removeFirst (bs2 ++ m ++ bs2) s)) := by
    rw [getRoute, hfind]
  by_cases hm : m = "END".toList
  · subst hm
    obtain ⟨hen, hag⟩ := hEND rfl
    have hENDmem : GNode.END ∈ opts := by
      obtain ⟨n, hn, hname⟩ := hmatch
      cases n with
      | START =>
          have h1 : ("START" : String).toList = ("END" : String).toList := hname
          exact absurd (string_toList_inj h1) (by decide)
      | END => exact hn
      | agent a =>
          have h1 : a.name.toList = ("END" : String).toList := hname
          exact absurd (string_toList_inj h1) (hag a hn)
    obtain ⟨i, hi⟩ := scanIdx_isSome_of_mem
      (p := fun o => o == GNode.END) ⟨GNode.END, hENDmem, by simp⟩
    obtain ⟨hlt, hpi, hprev⟩ := scanIdx_some_spec hi
    refine ⟨i, A, B, ?_, hAB, hmin, hlt, ?_, ?_⟩
    · rw [hred, if_pos rfl, hi, hrem]
    · have hg : opts.get ⟨i, hlt⟩ = GNode.END := eq_of_beq hpi
      rw [hg]
      simp [nmOf, hen]
    · intro j hj hji hcontra
      have hne : opts.get ⟨j, hj⟩ ≠ GNode.END :=
        beq_eq_false_iff_ne.mp (hprev j hj hji)
      cases hoj : opts.get ⟨j, hj⟩ with
      | START =>
          rw [hoj] at hcontra
          have h1 : ("START" : String).toList = ("END" : String).toList := hcontra
          exact absurd (string_toList_inj h1) (by decide)
      | END => exact hne hoj
      | agent a =>
          rw [hoj] at hcontra
          have h1 : a.name.toList = ("END" : String).toList := hcontra
          exact hag a (hoj ▸ List.get_mem opts j hj) (string_toList_inj h1)
  · obtain ⟨n, hn, hname⟩ := hmatch
    obtain ⟨i, hi⟩ := scanIdx_isSome_of_mem
      (p := fun o => (nmOf endName o).toList == m)
      ⟨n, hn, by rw [beq_iff_eq]; exact hname⟩
    obtain ⟨hlt, hpi, hprev⟩ := scanIdx_some_spec hi
    refine ⟨i, A, B, ?_, hAB, hmin, hlt, eq_of_beq hpi, ?_⟩
    · rw [hred, if_neg hm, hi, hrem]
    · intro j hj hji
      exact beq_eq_false_iff_ne.mp (hprev j hj hji)

/-- Witness applying `get_route_first_match_resolution`: among destinations
`[A, B]`, the output `"hand to \\B\\ now"` routes to index 1 with the
command stripped. -/
theorem get_route_first_match_resolution_witness :
    ∃ i A B,
      getRoute "END" [dA, dB] ("hand to \\\\B\\\\ now").toList =
        RouteOut.route i (A ++ B) ∧
      ("hand to \\\\B\\\\ now").toList =
        A ++ (bs2 ++ "B".toList ++ bs2) ++ B ∧
      (∀ A' B', ("hand to \\\\B\\\\ now").toList =
          A' ++ (bs2 ++ "B".toList ++ bs2) ++ B' →
        A.length ≤ A'.length) ∧
      ∃ h : i < [dA, dB].length,
        (nmOf "END" ([dA, dB].get ⟨i, h⟩)).toList = "B".toList ∧
        ∀ j (hj : j < [dA, dB].length), j < i →
          (nmOf "END" ([dA, dB].get ⟨j, hj⟩)).toList ≠ "B".toList :=
  get_route_first_match_resolution "END" [dA, dB]
    (("hand to \\\\B\\\\ now").toList) ("B".toList) (by decide) (by decide)
    (fun h => absurd h (by decide)) ⟨dB, by decide, by decide⟩
